import Mathlib

/-!
Verification of the read-only SQL guard and the markdown table formatter of
the Langchain_Cohere_Sql_Agent repository, as a shallow embedding over
`List Char` (the character sequence of a Python string).

Guard side (sources):
- `validate_input` (awsclaude_sql_agent.py): blocks a query when any of the
  four strings DROP, DELETE, UPDATE, INSERT occurs as a substring of
  `query.upper()`.
- `prevent_modification_queries` (postgres_sql_agent.py, gemini_sql_agent.py):
  raises when `statement.lower().strip()` starts with one of update, delete,
  insert, alter, drop, truncate.
- `QueryGuard.check` composes the two source guards: a statement passes
  (result `ok`) exactly when both guards let it through, mirroring the
  specification view of a single read-only guard with a pre-flight scan and a
  driver-level hook.

Formatter side (source): `fix_table_formatting` (gemini_sql_agent.py).
-/

/-- Embedding of Python `s.upper()` for ASCII text: uppercase every char. -/
def upperChars (s : List Char) : List Char := s.map Char.toUpper

/-- Embedding of Python `s.lower()` for ASCII text: lowercase every char. -/
def lowerChars (s : List Char) : List Char := s.map Char.toLower

/-- Embedding of Python `s.strip()`: drop whitespace from both ends. -/
def stripChars (s : List Char) : List Char :=
  ((s.dropWhile Char.isWhitespace).reverse.dropWhile Char.isWhitespace).reverse

/-- Embedding of the Python substring test `needle in hay`. -/
def inStr : List Char → List Char → Bool
  | needle, [] => needle.isEmpty
  | needle, h :: t => needle.isPrefixOf (h :: t) || inStr needle t

/-- The list `dangerous_commands` of `validate_input` in awsclaude_sql_agent.py. -/
def dangerous_commands : List (List Char) :=
  [("DROP").data, ("DELETE").data, ("UPDATE").data, ("INSERT").data]

/-- Embedding of `validate_input` (awsclaude_sql_agent.py, lines 119-130):
returns `true` (safe) unless one of `dangerous_commands` occurs as a substring
of the uppercased query. -/
def validate_input (query : List Char) : Bool :=
  ! dangerous_commands.any (fun cmd => inStr cmd (upperChars query))

/-- The six leading verbs tested by `prevent_modification_queries`
(postgres_sql_agent.py, lines 38-49). -/
def modification_verbs : List (List Char) :=
  [("update").data, ("delete").data, ("insert").data,
   ("alter").data, ("drop").data, ("truncate").data]

/-- Embedding of `prevent_modification_queries`: `true` means the hook raises
(blocks), which happens exactly when `statement.lower().strip()` starts with
one of the six modification verbs. -/
def prevent_modification_queries (statement : List Char) : Bool :=
  modification_verbs.any (fun v => v.isPrefixOf (stripChars (lowerChars statement)))

/-- Result type of the guard: the statement is either allowed or rejected. -/
inductive GuardResult
  | ok
  | err
deriving DecidableEq

/-- The composite guard of the specification: a statement is allowed exactly
when the pre-flight scan `validate_input` accepts it and the driver hook
`prevent_modification_queries` does not raise. -/
def QueryGuard.check (statement : List Char) : GuardResult :=
  if validate_input statement && ! prevent_modification_queries statement then .ok else .err

/-- Specification vocabulary: the disallow-list of seven mutating verbs named
by the spec (the code only scans the first four as substrings). -/
def disallowList : List (List Char) :=
  [("UPDATE").data, ("DELETE").data, ("INSERT").data, ("ALTER").data,
   ("DROP").data, ("TRUNCATE").data, ("CREATE").data]

/-- Specification vocabulary: the leading keyword token of a statement, i.e.
the maximal run of letters at the front of the trimmed, case-folded text. -/
def leadingToken (s : List Char) : List Char :=
  (stripChars (lowerChars s)).takeWhile Char.isAlpha

/-- Specification vocabulary: SQL word characters (letters, digits, underscore),
used to delimit standalone tokens. -/
def isWordChar (c : Char) : Bool := c.isAlphanum || c == '_'

/-- Helper for `sqlTokens`: accumulate the current word (reversed) while
scanning the remaining characters. -/
def tokensAux : List Char → List Char → List (List Char)
  | cur, [] => if cur.isEmpty then [] else [cur.reverse]
  | cur, c :: cs =>
    if isWordChar c then tokensAux (c :: cur) cs
    else if cur.isEmpty then tokensAux [] cs
    else cur.reverse :: tokensAux [] cs

/-- Specification vocabulary: the standalone tokens of a statement, the maximal
runs of word characters. -/
def sqlTokens (s : List Char) : List (List Char) := tokensAux [] s

/-! Helper lemmas about the guard embedding. -/

/-- Every character of a substring occurrence is a character of the text. -/
theorem mem_of_inStr {v : List Char} {c : Char} :
    ∀ {hay : List Char}, inStr v hay = true → c ∈ v → c ∈ hay := by
  intro hay
  induction hay with
  | nil =>
    intro h hc
    simp only [inStr, List.isEmpty_iff] at h
    subst h
    exact absurd hc (List.not_mem_nil c)
  | cons a t ih =>
    intro h hc
    have h2 : v <+: (a :: t) ∨ inStr v t = true := by simpa [inStr] using h
    rcases h2 with h1 | h1
    · exact List.Sublist.mem hc h1.sublist
    · exact List.mem_cons_of_mem a (ih h1 hc)

/-- Uppercasing preserves whitespace characters. -/
theorem toUpper_isWhitespace {c : Char} (h : c.isWhitespace = true) :
    (Char.toUpper c).isWhitespace = true := by
  simp only [Char.isWhitespace, Bool.or_eq_true, decide_eq_true_eq] at h
  rcases h with ((h | h) | h) | h <;> subst h <;> decide

/-- Lowercasing preserves whitespace characters. -/
theorem toLower_isWhitespace {c : Char} (h : c.isWhitespace = true) :
    (Char.toLower c).isWhitespace = true := by
  simp only [Char.isWhitespace, Bool.or_eq_true, decide_eq_true_eq] at h
  rcases h with ((h | h) | h) | h <;> subst h <;> decide

/-- Stripping a whitespace-only text yields the empty text. -/
theorem stripChars_eq_nil {l : List Char} (h : ∀ c ∈ l, c.isWhitespace = true) :
    stripChars l = [] := by
  unfold stripChars
  have h1 : l.dropWhile Char.isWhitespace = [] := List.dropWhile_eq_nil_iff.mpr h
  rw [h1]
  rfl

/-- A substring with a non-whitespace character never occurs in whitespace-only
text, even after uppercasing. -/
theorem inStr_upper_ws_false (c : Char) {s v : List Char}
    (hws : ∀ a ∈ s, a.isWhitespace = true) (hc : c ∈ v) (hcw : c.isWhitespace = false) :
    inStr v (upperChars s) = false := by
  cases hvi : inStr v (upperChars s) with
  | false => rfl
  | true =>
    exfalso
    have hmem : c ∈ upperChars s := mem_of_inStr hvi hc
    obtain ⟨a, ha, rfl⟩ := List.mem_map.mp hmem
    have : (Char.toUpper a).isWhitespace = true := toUpper_isWhitespace (hws a ha)
    rw [hcw] at this
    cases this

/-- takeWhile distributes over an append whose first part satisfies the
predicate everywhere. -/
theorem takeWhile_append_all {p : Char → Bool} :
    ∀ {v : List Char}, (∀ c ∈ v, p c = true) →
      ∀ r : List Char, (v ++ r).takeWhile p = v ++ r.takeWhile p := by
  intro v
  induction v with
  | nil => intro _ r; rfl
  | cons c cs ih =>
    intro hall r
    have hc : p c = true := hall c (List.mem_cons_self c cs)
    simp only [List.cons_append, List.takeWhile_cons, hc, if_true, List.cons.injEq, true_and]
    exact ih (fun a ha => hall a (List.mem_cons_of_mem c ha)) r

/-- An all-letter word that starts the trimmed case-folded text also starts its
leading keyword token. -/
theorem isPrefixOf_leadingToken {s v : List Char}
    (hall : ∀ c ∈ v, c.isAlpha = true)
    (h : v.isPrefixOf (stripChars (lowerChars s)) = true) :
    v.isPrefixOf (leadingToken s) = true := by
  obtain ⟨r, hr⟩ := List.isPrefixOf_iff_prefix.mp h
  apply List.isPrefixOf_iff_prefix.mpr
  refine ⟨(r.takeWhile Char.isAlpha), ?_⟩
  unfold leadingToken
  rw [← hr, takeWhile_append_all hall r]

/-! Claims C1 through C6 about the guard. -/

/-- Claim C1 as stated is false on the code: the statement
"select 1; alter table t add c int" contains the disallow-listed verb ALTER
(case-insensitively, not as the leading token), yet the guard returns ok,
because the substring scan of validate_input only covers DROP, DELETE, UPDATE
and INSERT, and the prefix hook only looks at the leading verb. -/
theorem claim_C1_counterexample :
    ("ALTER").data ∈ disallowList
    ∧ inStr (("ALTER").data) (upperChars (("select 1; alter table t add c int").data)) = true
    ∧ QueryGuard.check (("select 1; alter table t add c int").data) = GuardResult.ok := by
  decide

/-- Claim C1 (amended): for every SQL statement that contains, anywhere in its
text (case-insensitively), one of the four scanned verbs DROP, DELETE, UPDATE
or INSERT, the guard returns err. ALTER, TRUNCATE and CREATE are not part of
the substring scan. -/
theorem claim_C1_amended (s v : List Char) (hv : v ∈ dangerous_commands)
    (h : inStr v (upperChars s) = true) : QueryGuard.check s = GuardResult.err := by
  have hval : validate_input s = false := by
    simp only [validate_input, Bool.not_eq_false', List.any_eq_true]
    exact ⟨v, hv, h⟩
  simp [QueryGuard.check, hval]

/-- Witness for the amended claim C1, at the multi-statement batch from the
spec example. -/
theorem claim_C1_witness :
    QueryGuard.check (("select * from players; DROP TABLE players;").data) = GuardResult.err :=
  claim_C1_amended (("select * from players; DROP TABLE players;").data)
    (("DROP").data) (by decide) (by decide)

/-- Claim C2 as stated is false on the code: the empty statement passes both
guards, so check returns ok, not err; the guard does not fail closed. -/
theorem claim_C2_counterexample : QueryGuard.check [] = GuardResult.ok := by
  decide

/-- Claim C2 (amended): the guard accepts the empty string and every
whitespace-only string; for every input consisting of zero or more whitespace
characters only, check returns ok (the guard fails open on such input). -/
theorem claim_C2_amended (s : List Char) (hws : ∀ c ∈ s, c.isWhitespace = true) :
    QueryGuard.check s = GuardResult.ok := by
  have hval : validate_input s = true := by
    simp only [validate_input, Bool.not_eq_true', List.any_eq_false]
    intro cmd hcmd hcon
    fin_cases hcmd
    · have h2 : inStr (("DROP").data) (upperChars s) = false :=
        inStr_upper_ws_false 'D' hws (by decide) (by decide)
      simp [h2] at hcon
    · have h2 : inStr (("DELETE").data) (upperChars s) = false :=
        inStr_upper_ws_false 'D' hws (by decide) (by decide)
      simp [h2] at hcon
    · have h2 : inStr (("UPDATE").data) (upperChars s) = false :=
        inStr_upper_ws_false 'U' hws (by decide) (by decide)
      simp [h2] at hcon
    · have h2 : inStr (("INSERT").data) (upperChars s) = false :=
        inStr_upper_ws_false 'I' hws (by decide) (by decide)
      simp [h2] at hcon
  have hstrip : stripChars (lowerChars s) = [] := by
    apply stripChars_eq_nil
    intro c hc
    obtain ⟨a, ha, rfl⟩ := List.mem_map.mp hc
    exact toLower_isWhitespace (hws a ha)
  have hprev : prevent_modification_queries s = false := by
    unfold prevent_modification_queries
    rw [hstrip]
    decide
  simp [QueryGuard.check, hval, hprev]

/-- Witness for the amended claim C2, at a one-space input. -/
theorem claim_C2_witness : QueryGuard.check ((" ").data) = GuardResult.ok :=
  claim_C2_amended ((" ").data) (by decide)

/-- Claim C3: every statement whose trimmed, case-folded text starts with one
of drop, delete, insert, update, alter, truncate is rejected: the driver hook
raises, so the composite guard returns err. -/
theorem claim_C3 (s v : List Char) (hv : v ∈ modification_verbs)
    (h : v.isPrefixOf (stripChars (lowerChars s)) = true) :
    QueryGuard.check s = GuardResult.err := by
  have hprev : prevent_modification_queries s = true := by
    simp only [prevent_modification_queries, List.any_eq_true]
    exact ⟨v, hv, h⟩
  simp [QueryGuard.check, hprev]

/-- Witness for claim C3, at a leading DROP statement. -/
theorem claim_C3_witness :
    QueryGuard.check (("DROP TABLE players").data) = GuardResult.err :=
  claim_C3 (("DROP TABLE players").data) (("drop").data) (by decide) (by decide)

/-- Claim C4 as stated is false on the code: the read query
"select updated_at from players" has leading token select and contains none of
the seven disallow-listed verbs as a standalone token, yet the guard returns
err, because the substring scan of validate_input matches UPDATE inside the
identifier updated_at. -/
theorem claim_C4_counterexample :
    leadingToken (("select updated_at from players").data) = ("select").data
    ∧ (∀ v ∈ disallowList,
        lowerChars v ∉ sqlTokens (lowerChars (("select updated_at from players").data)))
    ∧ QueryGuard.check (("select updated_at from players").data) = GuardResult.err := by
  decide

/-- Claim C4 (amended): for every statement whose case-folded leading token is
select, with, explain or show, and whose text contains none of the seven
disallow-listed verbs as a substring (case-insensitively, rather than as a
standalone token), the guard returns ok. -/
theorem claim_C4_amended (s : List Char)
    (hlead : leadingToken s = ("select").data ∨ leadingToken s = ("with").data
      ∨ leadingToken s = ("explain").data ∨ leadingToken s = ("show").data)
    (hsub : ∀ v ∈ disallowList, inStr v (upperChars s) = false) :
    QueryGuard.check s = GuardResult.ok := by
  have hval : validate_input s = true := by
    simp only [validate_input, Bool.not_eq_true', List.any_eq_false]
    intro cmd hcmd hcon
    have h2 : inStr cmd (upperChars s) = false := by
      apply hsub
      fin_cases hcmd <;> decide
    simp [h2] at hcon
  have hprev : prevent_modification_queries s = false := by
    cases hp : prevent_modification_queries s with
    | false => rfl
    | true =>
      exfalso
      unfold prevent_modification_queries at hp
      obtain ⟨v, hv, hpref⟩ := List.any_eq_true.mp hp
      fin_cases hv
      all_goals
        have h2 := isPrefixOf_leadingToken (by decide) hpref
        rcases hlead with h3 | h3 | h3 | h3 <;> rw [h3] at h2 <;> exact absurd h2 (by decide)
  simp [QueryGuard.check, hval, hprev]

/-- Witness for the amended claim C4, at the plain read query from the spec
example. -/
theorem claim_C4_witness :
    QueryGuard.check (("SELECT * FROM players").data) = GuardResult.ok :=
  claim_C4_amended (("SELECT * FROM players").data) (by left; decide) (by decide)

/-- Claim C5: the guard is total: on every input it returns either ok or err;
rejection is the only failure channel of the embedding. -/
theorem claim_C5 (s : List Char) :
    QueryGuard.check s = GuardResult.ok ∨ QueryGuard.check s = GuardResult.err := by
  unfold QueryGuard.check
  by_cases h : (validate_input s && ! prevent_modification_queries s) = true
  · left; simp [h]
  · right; simp [h]

/-- Claim C6: the disallow-list scan can false-positive: there is a statement
with leading token select, containing a disallow-listed word only inside an
identifier (a column named updated_at) and not as a standalone token, on which
the guard returns err. -/
theorem claim_C6 :
    ∃ s : List Char, leadingToken s = ("select").data
      ∧ (∀ v ∈ disallowList, lowerChars v ∉ sqlTokens (lowerChars s))
      ∧ QueryGuard.check s = GuardResult.err :=
  ⟨("select updated_at from orders").data, by decide, by decide, by decide⟩

/-! Embedding of the markdown table formatter `fix_table_formatting`
(gemini_sql_agent.py, lines 64-89). Text is modelled as `List Char`; the
line split and join mirror Python `text.split(chr(10))` and the newline join. -/

/-- Embedding of the table-line test of the source: the stripped line starts
with a pipe character and the line from index 1 onward contains another pipe. -/
def tableLine (line : List Char) : Bool :=
  ((stripChars line).head? == some '|') && (line.drop 1).contains '|'

/-- The source guard `i > 0 and lines[i-1].strip() != ''` inverted: a blank
line is inserted before a table start unless there is no previous line or the
previous line strips to empty. -/
def prevBlank : Option (List Char) → Bool
  | none => true
  | some q => stripChars q == []

/-- Embedding of the loop body of `fix_table_formatting`: walk the lines with
the previous original line and the in-table flag, inserting empty lines at
table starts after non-blank lines and at table ends before non-blank lines. -/
def fixLoop : Option (List Char) → Bool → List (List Char) → List (List Char)
  | _, _, [] => []
  | prev, inTable, line :: rest =>
    if !inTable && tableLine line then
      if prevBlank prev then line :: fixLoop (some line) true rest
      else [] :: line :: fixLoop (some line) true rest
    else if inTable && !tableLine line then
      if stripChars line = [] then line :: fixLoop (some line) false rest
      else [] :: line :: fixLoop (some line) false rest
    else
      line :: fixLoop (some line) inTable rest

/-- Embedding of Python `text.split` on the newline character. -/
def splitNl : List Char → List (List Char)
  | [] => [[]]
  | c :: cs =>
    if c = '\n' then [] :: splitNl cs
    else
      match splitNl cs with
      | [] => [[c]]
      | l :: ls => (c :: l) :: ls

/-- Embedding of the Python newline join of a list of lines. -/
def joinNl : List (List Char) → List Char
  | [] => []
  | [l] => l
  | l :: ls => l ++ '\n' :: joinNl ls

/-- Embedding of `fix_table_formatting`: split into lines, run the loop with
no previous line and the flag down, and join with newlines. -/
def fix_table_formatting (text : List Char) : List Char :=
  joinNl (fixLoop none false (splitNl text))

/-- The specification name for the formatter. -/
def MarkdownTableNormalizer.normalize (text : List Char) : List Char :=
  fix_table_formatting text

/-! Helper lemmas about the formatter embedding. -/

/-- The loop on an empty line list. -/
theorem fixLoop_nil (p : Option (List Char)) (b : Bool) : fixLoop p b [] = [] := rfl

/-- The loop step with the in-table flag down: a table line opens a table,
with a blank inserted unless the previous line is absent or blank; any other
line passes through. -/
theorem fixLoop_false_cons (p : Option (List Char)) (line : List Char)
    (rest : List (List Char)) :
    fixLoop p false (line :: rest) =
      if tableLine line then
        if prevBlank p then line :: fixLoop (some line) true rest
        else [] :: line :: fixLoop (some line) true rest
      else line :: fixLoop (some line) false rest := by
  by_cases h : tableLine line = true <;> simp [fixLoop, h]

/-- The loop step with the in-table flag up: a table line passes through; any
other line closes the table, with a blank inserted unless the line is blank. -/
theorem fixLoop_true_cons (p : Option (List Char)) (line : List Char)
    (rest : List (List Char)) :
    fixLoop p true (line :: rest) =
      if tableLine line then line :: fixLoop (some line) true rest
      else
        if stripChars line = [] then line :: fixLoop (some line) false rest
        else [] :: line :: fixLoop (some line) false rest := by
  by_cases h : tableLine line = true <;> simp [fixLoop, h]

/-- Splitting never yields an empty list of lines. -/
theorem splitNl_ne_nil : ∀ s : List Char, splitNl s ≠ []
  | [] => by simp [splitNl]
  | c :: cs => by
    unfold splitNl
    by_cases h : c = '\n'
    · simp [h]
    · simp only [h, if_false]
      cases hs : splitNl cs <;> simp

/-- No line produced by splitting contains a newline character. -/
theorem noNl_splitNl : ∀ (s : List Char), ∀ l ∈ splitNl s, ('\n' : Char) ∉ l := by
  intro s
  induction s with
  | nil =>
    intro l hl
    simp only [splitNl, List.mem_singleton] at hl
    subst hl
    exact List.not_mem_nil _
  | cons c cs ih =>
    intro l hl
    unfold splitNl at hl
    by_cases h : c = '\n'
    · rw [if_pos h] at hl
      rcases List.mem_cons.mp hl with rfl | hl2
      · exact List.not_mem_nil _
      · exact ih l hl2
    · rw [if_neg h] at hl
      cases hs : splitNl cs with
      | nil => exact absurd hs (splitNl_ne_nil cs)
      | cons l0 ls =>
        rw [hs] at hl
        rcases List.mem_cons.mp hl with rfl | hl2
        · intro hmem
          rcases List.mem_cons.mp hmem with hc | hl0
          · exact h hc.symm
          · exact ih l0 (hs ▸ List.mem_cons_self l0 ls) hl0
        · exact ih l (hs ▸ List.mem_cons_of_mem l0 hl2)

/-- Joining a list with at least two lines puts a newline after the first. -/
theorem joinNl_cons (l : List Char) (ls : List (List Char)) (h : ls ≠ []) :
    joinNl (l :: ls) = l ++ '\n' :: joinNl ls := by
  cases ls with
  | nil => exact absurd rfl h
  | cons m ms => rfl

/-- Joining the lines of a split recovers the text. -/
theorem joinNl_splitNl : ∀ s : List Char, joinNl (splitNl s) = s := by
  intro s
  induction s with
  | nil => rfl
  | cons c cs ih =>
    unfold splitNl
    by_cases h : c = '\n'
    · rw [if_pos h, joinNl_cons [] (splitNl cs) (splitNl_ne_nil cs), ih, h]
      rfl
    · rw [if_neg h]
      cases hs : splitNl cs with
      | nil => exact absurd hs (splitNl_ne_nil cs)
      | cons l0 ls =>
        rw [hs] at ih
        cases ls with
        | nil =>
          simp only [joinNl] at ih ⊢
          rw [ih]
        | cons m ms =>
          rw [joinNl_cons (c :: l0) (m :: ms) (by simp),
              joinNl_cons l0 (m :: ms) (by simp)] at *
          rw [List.cons_append, ih]

/-- Splitting a newline-free text yields that single line. -/
theorem splitNl_single : ∀ l : List Char, ('\n' : Char) ∉ l → splitNl l = [l] := by
  intro l
  induction l with
  | nil => intro _; rfl
  | cons c cs ih =>
    intro h
    have hc : c ≠ '\n' := fun hc => h (hc ▸ List.mem_cons_self c cs)
    have hcs : splitNl cs = [cs] := ih (fun hm => h (List.mem_cons_of_mem c hm))
    unfold splitNl
    rw [if_neg hc, hcs]

/-- Splitting a text of the form line, newline, tail peels off the line. -/
theorem splitNl_append_nl : ∀ (l t : List Char), ('\n' : Char) ∉ l →
    splitNl (l ++ '\n' :: t) = l :: splitNl t := by
  intro l
  induction l with
  | nil => intro t _; simp [splitNl]
  | cons c cs ih =>
    intro t h
    have hc : c ≠ '\n' := fun hc => h (hc ▸ List.mem_cons_self c cs)
    have hcs := ih t (fun hm => h (List.mem_cons_of_mem c hm))
    simp only [List.cons_append]
    rw [splitNl, if_neg hc, hcs]

/-- Splitting the join of a nonempty list of newline-free lines recovers the
lines. -/
theorem splitNl_joinNl : ∀ M : List (List Char), M ≠ [] →
    (∀ l ∈ M, ('\n' : Char) ∉ l) → splitNl (joinNl M) = M := by
  intro M
  induction M with
  | nil => intro h _; exact absurd rfl h
  | cons l M2 ih =>
    intro _ hnl
    cases M2 with
    | nil => exact splitNl_single l (hnl l (List.mem_cons_self l []))
    | cons m ms =>
      rw [joinNl_cons l (m :: ms) (by simp),
          splitNl_append_nl l (joinNl (m :: ms)) (hnl l (List.mem_cons_self l (m :: ms))),
          ih (by simp) (fun a ha => hnl a (List.mem_cons_of_mem l ha))]

/-- The output of the loop is the input line list with some blank (empty)
lines inserted: this relation holds of `l` and any list obtained from `l` by
inserting empty lines at arbitrary positions. -/
inductive BlankInserted : List (List Char) → List (List Char) → Prop
  | nil : BlankInserted [] []
  | keep (x : List Char) {l m : List (List Char)} (h : BlankInserted l m) :
      BlankInserted (x :: l) (x :: m)
  | blank {l m : List (List Char)} (h : BlankInserted l m) :
      BlankInserted l ([] :: m)

/-- The loop only inserts blank lines: its output stands in the
`BlankInserted` relation to its input. -/
theorem blankInserted_fixLoop : ∀ (L : List (List Char)) (p : Option (List Char)) (b : Bool),
    BlankInserted L (fixLoop p b L) := by
  intro L
  induction L with
  | nil => intro p b; exact BlankInserted.nil
  | cons line rest ih =>
    intro p b
    cases b with
    | false =>
      rw [fixLoop_false_cons]
      by_cases ht : tableLine line = true
      · rw [if_pos ht]
        by_cases hp : prevBlank p = true
        · rw [if_pos hp]; exact BlankInserted.keep line (ih _ _)
        · rw [if_neg hp]; exact BlankInserted.blank (BlankInserted.keep line (ih _ _))
      · rw [if_neg ht]; exact BlankInserted.keep line (ih _ _)
    | true =>
      rw [fixLoop_true_cons]
      by_cases ht : tableLine line = true
      · rw [if_pos ht]; exact BlankInserted.keep line (ih _ _)
      · rw [if_neg ht]
        by_cases hb : stripChars line = []
        · rw [if_pos hb]; exact BlankInserted.keep line (ih _ _)
        · rw [if_neg hb]; exact BlankInserted.blank (BlankInserted.keep line (ih _ _))

/-- Every line of a blank-insertion extension is an input line or blank. -/
theorem mem_of_blankInserted {L M : List (List Char)} (h : BlankInserted L M) :
    ∀ {l : List Char}, l ∈ M → l ∈ L ∨ l = [] := by
  induction h with
  | nil =>
    intro l hl
    exact absurd hl (List.not_mem_nil l)
  | keep x h2 ih =>
    intro l hl
    rcases List.mem_cons.mp hl with rfl | hl2
    · exact Or.inl (List.mem_cons_self _ _)
    · rcases ih hl2 with h3 | h3
      · exact Or.inl (List.mem_cons_of_mem _ h3)
      · exact Or.inr h3
  | blank h2 ih =>
    intro l hl
    rcases List.mem_cons.mp hl with rfl | hl2
    · exact Or.inr rfl
    · exact ih hl2

/-- The loop output on a nonempty line list is nonempty. -/
theorem fixLoop_cons_ne_nil (p : Option (List Char)) (b : Bool) (line : List Char)
    (rest : List (List Char)) : fixLoop p b (line :: rest) ≠ [] := by
  cases b with
  | false =>
    rw [fixLoop_false_cons]
    by_cases ht : tableLine line = true
    · rw [if_pos ht]
      by_cases hp : prevBlank p = true
      · rw [if_pos hp]; simp
      · rw [if_neg hp]; simp
    · rw [if_neg ht]; simp
  | true =>
    rw [fixLoop_true_cons]
    by_cases ht : tableLine line = true
    · rw [if_pos ht]; simp
    · rw [if_neg ht]
      by_cases hb : stripChars line = []
      · rw [if_pos hb]; simp
      · rw [if_neg hb]; simp

/-- Lines of the loop output contain no newline when the input lines contain
none. -/
theorem noNl_fixLoop (L : List (List Char)) (p : Option (List Char)) (b : Bool)
    (h : ∀ l ∈ L, ('\n' : Char) ∉ l) : ∀ l ∈ fixLoop p b L, ('\n' : Char) ∉ l := by
  intro l hl
  rcases mem_of_blankInserted (blankInserted_fixLoop L p b) hl with h1 | rfl
  · exact h l h1
  · exact List.not_mem_nil _

/-- The loop is idempotent on line lists, for every starting state. -/
theorem fixLoop_idem : ∀ (L : List (List Char)) (p : Option (List Char)) (b : Bool),
    fixLoop p b (fixLoop p b L) = fixLoop p b L := by
  intro L
  induction L with
  | nil => intro p b; rfl
  | cons line rest ih =>
    intro p b
    cases b with
    | false =>
      by_cases ht : tableLine line = true
      · by_cases hp : prevBlank p = true
        · rw [fixLoop_false_cons, if_pos ht, if_pos hp,
              fixLoop_false_cons, if_pos ht, if_pos hp, ih]
        · rw [fixLoop_false_cons, if_pos ht, if_neg hp, fixLoop_false_cons,
              if_neg (show ¬ (tableLine [] = true) by decide),
              fixLoop_false_cons, if_pos ht,
              if_pos (show prevBlank (some []) = true by decide), ih]
      · rw [fixLoop_false_cons, if_neg ht, fixLoop_false_cons, if_neg ht, ih]
    | true =>
      by_cases ht : tableLine line = true
      · rw [fixLoop_true_cons, if_pos ht, fixLoop_true_cons, if_pos ht, ih]
      · by_cases hb : stripChars line = []
        · rw [fixLoop_true_cons, if_neg ht, if_pos hb,
              fixLoop_true_cons, if_neg ht, if_pos hb, ih]
        · rw [fixLoop_true_cons, if_neg ht, if_neg hb, fixLoop_true_cons,
              if_neg (show ¬ (tableLine [] = true) by decide),
              if_pos (show stripChars [] = [] by decide),
              fixLoop_false_cons, if_neg ht, ih]

/-- With no table line in sight and the flag down, the loop changes nothing. -/
theorem fixLoop_id_of_no_table : ∀ (L : List (List Char)),
    (∀ l ∈ L, tableLine l = false) → ∀ p : Option (List Char), fixLoop p false L = L := by
  intro L
  induction L with
  | nil => intro _ p; rfl
  | cons line rest ih =>
    intro h p
    have hline : tableLine line = false := h line (List.mem_cons_self line rest)
    rw [fixLoop_false_cons, if_neg (by simp [hline]),
        ih (fun a ha => h a (List.mem_cons_of_mem line ha)) (some line)]

/-! Claims C7 through C10 about the formatter. -/

/-- Claim C7: the formatter is idempotent: normalizing twice yields the same
text as normalizing once, so re-applying it to already-normalized text inserts
no additional blank lines. -/
theorem claim_C7 (s : List Char) :
    MarkdownTableNormalizer.normalize (MarkdownTableNormalizer.normalize s)
      = MarkdownTableNormalizer.normalize s := by
  unfold MarkdownTableNormalizer.normalize fix_table_formatting
  have hne : fixLoop none false (splitNl s) ≠ [] := by
    cases hs : splitNl s with
    | nil => exact absurd hs (splitNl_ne_nil s)
    | cons l ls => exact fixLoop_cons_ne_nil none false l ls
  rw [splitNl_joinNl (fixLoop none false (splitNl s)) hne
        (noNl_fixLoop (splitNl s) none false (noNl_splitNl s)),
      fixLoop_idem]

/-- Claim C8 as stated is false on the code: in the input consisting of the
line x followed by a line that begins with a space and then pipes, no line
starts with the pipe character, yet the formatter inserts a blank line, because
the source strips each line before testing for the leading pipe. -/
theorem claim_C8_counterexample :
    (∀ l ∈ splitNl (("x\n |a|a|").data), l.head? ≠ some '|')
    ∧ MarkdownTableNormalizer.normalize (("x\n |a|a|").data) ≠ ("x\n |a|a|").data := by
  decide

/-- Claim C8 (amended): for every input in which no line starts with the pipe
character after trimming surrounding whitespace, the formatter returns the
input unchanged. -/
theorem claim_C8_amended (s : List Char)
    (h : ∀ l ∈ splitNl s, (stripChars l).head? ≠ some '|') :
    MarkdownTableNormalizer.normalize s = s := by
  have ht : ∀ l ∈ splitNl s, tableLine l = false := by
    intro l hl
    have h2 : ((stripChars l).head? == some '|') = false := by
      cases heq : ((stripChars l).head? == some '|') with
      | false => rfl
      | true => exact absurd (eq_of_beq heq) (h l hl)
    unfold tableLine
    rw [h2, Bool.false_and]
  unfold MarkdownTableNormalizer.normalize fix_table_formatting
  rw [fixLoop_id_of_no_table (splitNl s) ht none, joinNl_splitNl]

/-- Witness for the amended claim C8, at a two-line input without pipes. -/
theorem claim_C8_witness :
    MarkdownTableNormalizer.normalize (("hello\nworld").data) = ("hello\nworld").data :=
  claim_C8_amended (("hello\nworld").data) (by decide)

/-- Claim C9: the formatter changes its input only by inserting blank lines:
the lines of the output are exactly the lines of the input, in order and
unchanged, with some empty lines inserted. -/
theorem claim_C9 (s : List Char) :
    BlankInserted (splitNl s) (splitNl (MarkdownTableNormalizer.normalize s)) := by
  unfold MarkdownTableNormalizer.normalize fix_table_formatting
  have hne : fixLoop none false (splitNl s) ≠ [] := by
    cases hs : splitNl s with
    | nil => exact absurd hs (splitNl_ne_nil s)
    | cons l ls => exact fixLoop_cons_ne_nil none false l ls
  rw [splitNl_joinNl (fixLoop none false (splitNl s)) hne
        (noNl_fixLoop (splitNl s) none false (noNl_splitNl s))]
  exact blankInserted_fixLoop (splitNl s) none false

/-- Claim C10: on the four-line example the formatter inserts one blank line
before and one after the two-line table block, and a single table line with no
surrounding context is returned unchanged. -/
theorem claim_C10 :
    MarkdownTableNormalizer.normalize (("Results:\n|a|b|\n|1|2|\nDone").data)
      = ("Results:\n\n|a|b|\n|1|2|\n\nDone").data
    ∧ MarkdownTableNormalizer.normalize (("|a|b|").data) = ("|a|b|").data := by
  decide
